import Mathlib

/-!
Verification development for the rush daemon benchmark client
(benches/daemon_client.py) and the comparative cross-shell driver
(benches/claude_code_benchmark.py).

Bytes are modelled as natural numbers below 256 in lists; machine 32-bit
integers are naturals taken modulo 2^32 where the source packs them;
latencies are exact rationals (the source uses Python floats; all the
arithmetic the claims mention is exact at these magnitudes); fallible
operations return Option or Except.
-/

namespace Rush

/-- Little-endian encoding of a natural to 4 bytes, as struct.pack with
the unsigned little-endian 4-byte format does for values below 2^32
(larger values make the source raise; theorems carry that bound). -/
def leEncode4 (x : Nat) : List Nat :=
  [x % 256, x / 256 % 256, x / 65536 % 256, x / 16777216 % 256]

/-- Little-endian decoding of a byte list, as struct.unpack with the
unsigned little-endian 4-byte format does on 4 bytes. -/
def leDecode (bs : List Nat) : Nat :=
  bs.foldr (fun b acc => b + 256 * acc) 0

/-- Wire bytes produced by send_message: the three sendall calls emit the
4-byte length field (4 + payload length), the 4-byte message id, then the
payload. -/
def sendMessageBytes (msgId : Nat) (payload : List Nat) : List Nat :=
  leEncode4 (payload.length + 4) ++ leEncode4 msgId ++ payload

/-- A stream-socket read end: the bytes the peer will deliver before the
stream closes, and an adversarial chunking plan giving the size each
successive recv call yields (clamped to the request and to what remains;
a blocking recv returns at least one byte unless the stream is closed). -/
structure StreamState where
  data : List Nat
  plan : Nat → Nat
  idx : Nat

/-- Size of the chunk the next recv call yields: the plan's choice,
clamped to at least one byte, to the request, and to what remains (zero
exactly when the stream is exhausted or nothing is requested). -/
def chunkSize (s : StreamState) (n : Nat) : Nat :=
  min n (min (max (s.plan s.idx) 1) s.data.length)

/-- One sock.recv(n) call: at end of stream it returns no bytes; otherwise
it returns between 1 and n bytes from the front, the chunk size chosen by
the plan. -/
def recvOnce (s : StreamState) (n : Nat) : List Nat × StreamState :=
  (s.data.take (chunkSize s n),
   { data := s.data.drop (chunkSize s n), plan := s.plan, idx := s.idx + 1 })

/-- The receive loops of recv_message: keep calling recv for the missing
byte count until n bytes are accumulated; none models the ConnectionError
raised when a recv returns no bytes first. The fuel argument only bounds
the recursion; fuel at least n always suffices because every successful
recv yields at least one byte. -/
def recvExactFuel : Nat → Nat → StreamState → Option (List Nat × StreamState)
  | _, 0, s => some ([], s)
  | 0, _ + 1, _ => none
  | fuel + 1, n + 1, s =>
    let r := recvOnce s (n + 1)
    if r.1.length = 0 then none
    else
      match recvExactFuel fuel (n + 1 - r.1.length) r.2 with
      | none => none
      | some p => some (r.1 ++ p.1, p.2)

/-- Read exactly n bytes from the stream (none: the peer closed early). -/
def recvExact (n : Nat) (s : StreamState) : Option (List Nat × StreamState) :=
  recvExactFuel n n s

/-- Failure modes of recv_message: the ConnectionError it raises on a
closed socket; the struct error unpacking fewer than 4 body bytes; the
json decode failure on a malformed payload. -/
inductive RecvErr where
  | connClosed
  | structErr
  | malformed
  deriving DecidableEq, Repr

/-- recv_message, byte level: read 4 length bytes, read that many body
bytes, split the body into the 4-byte message id and the payload. -/
def recvMessageBytes (s : StreamState) : Except RecvErr (List Nat × Nat) :=
  match recvExact 4 s with
  | none => .error .connClosed
  | some (rawLen, s1) =>
    match recvExact (leDecode rawLen) s1 with
    | none => .error .connClosed
    | some (data, _) =>
      if data.length < 4 then .error .structErr
      else .ok (data.drop 4, leDecode (data.take 4))

/-- recv_message, message level: deserialize the payload (the json loads
call, abstracted to any decoder) and return the message with the id. -/
def recvMessage {α : Type} (loads : List Nat → Option α) (s : StreamState) :
    Except RecvErr (α × Nat) :=
  match recvMessageBytes s with
  | .error e => .error e
  | .ok (payload, msgId) =>
    match loads payload with
    | none => .error .malformed
    | some m => .ok (m, msgId)

/-- The result record main builds after the measurement loop: iteration
count, the sorted sample, and the derived statistics. The command string
field is presentation only and omitted. -/
structure BenchSummary where
  iterations : Nat
  times_ms : List ℚ
  min_ms : ℚ
  max_ms : ℚ
  mean_ms : ℚ
  median_ms : ℚ
  p95_ms : ℚ
  p99_ms : ℚ
  deriving DecidableEq, Repr

/-- The summary block of main: sort the sample ascending in place, then
build the result record; min and max are the builtin folds over the
sorted list, mean is sum over count, median and the percentiles index the
sorted list at count over 2, count times 95 over 100 and count times 99
over 100 (the float products are exact at these magnitudes). An empty
sample makes the builtin min raise, modelled as none. -/
def summarize (times : List ℚ) : Option BenchSummary :=
  match List.insertionSort (· ≤ ·) times with
  | [] => none
  | a :: rest =>
    some { iterations := (a :: rest).length
           times_ms := a :: rest
           min_ms := rest.foldl min a
           max_ms := rest.foldl max a
           mean_ms := (a :: rest).sum / ((a :: rest).length : ℚ)
           median_ms := (a :: rest).getD ((a :: rest).length / 2) 0
           p95_ms := (a :: rest).getD ((a :: rest).length * 95 / 100) 0
           p99_ms := (a :: rest).getD ((a :: rest).length * 99 / 100) 0 }

/-- Outcome of a main run: warmup failure (caught, message printed, exit
status 1), measurement failure (uncaught exception, non-zero exit, no
output), failure while deriving the summary (uncaught ValueError on an
empty sample), or completion with the result record. -/
inductive MainOutcome where
  | warmupFailed (printed : String)
  | measurementFailed (err : String)
  | summaryError
  | finished (out : BenchSummary)
  deriving DecidableEq, Repr

/-- The warmup loop: run the calls starting at the given index; the first
failure is caught and ends the run (result and elapsed time discarded). -/
def runWarmup (call : Nat → Except String ℚ) : Nat → Nat → Option String
  | _, 0 => none
  | start, c + 1 =>
    match call start with
    | .error e => some e
    | .ok _ => runWarmup call (start + 1) c

/-- The measurement loop: run the calls starting at the given index,
appending each elapsed time in call order; a failure propagates
immediately, discarding the partial sample. -/
def runMeasure (call : Nat → Except String ℚ) : Nat → Nat → Except String (List ℚ)
  | _, 0 => .ok []
  | start, c + 1 =>
    match call start with
    | .error e => .error e
    | .ok v => (runMeasure call (start + 1) c).map (v :: ·)

/-- main of the daemon client, over an oracle giving each successive
execute_command call's outcome: calls 0 to w-1 are warmup, calls w to
w+n-1 are measurement. -/
def runMain (w n : Nat) (call : Nat → Except String ℚ) : MainOutcome :=
  match runWarmup call 0 w with
  | some e => .warmupFailed ("Warmup failed: " ++ e)
  | none =>
    match runMeasure call w n with
    | .error e => .measurementFailed e
    | .ok times =>
      match summarize times with
      | none => .summaryError
      | some y => .finished y

/-- The operations execute_command performs, in source order; the clock
markers are the two perf_counter reads. -/
inductive ClientStep where
  | createSocket
  | clockStart
  | connect
  | sendRequest
  | recvResponse
  | clockStop
  | closeSocket
  deriving DecidableEq, BEq, Repr

/-- The operation sequence of execute_command: create the socket, read
the clock, connect, send the request, receive the response, read the
clock again, close the socket. -/
def executeCommandTrace : List ClientStep :=
  [.createSocket, .clockStart, .connect, .sendRequest, .recvResponse,
   .clockStop, .closeSocket]

/-- The steps whose cost the elapsed time covers: those strictly between
the two clock reads. -/
def measuredSteps (t : List ClientStep) : List ClientStep :=
  ((t.dropWhile (· != ClientStep.clockStart)).drop 1).takeWhile
    (· != ClientStep.clockStop)

/-- The elapsed milliseconds execute_command returns, for a given cost of
each operation: the total cost of the steps between the clock reads. -/
def elapsedMs (cost : ClientStep → ℚ) : ℚ :=
  ((measuredSteps executeCommandTrace).map cost).sum

/-- The frame execute_command sends: send_message is called without an
explicit id, so the correlation id is the default 1. -/
def executeSendFrame (payload : List Nat) : List Nat :=
  sendMessageBytes 1 payload

/-- One row of the comparative driver's results: benchmark name, shell
basename, statistics over the successful runs. The stddev field (an
irrational square root) is not used by any property here and is left out
of the model. -/
structure BenchResult where
  name : String
  shell : String
  mean_ms : ℚ
  median_ms : ℚ
  min_ms : ℚ
  max_ms : ℚ
  runs : Nat
  deriving DecidableEq, Repr

/-- statistics.median: middle of the sorted list for odd length, average
of the two middles for even length. -/
def statMedian (l : List ℚ) : ℚ :=
  let s := List.insertionSort (· ≤ ·) l
  if s.length % 2 = 1 then s.getD (s.length / 2) 0
  else (s.getD (s.length / 2 - 1) 0 + s.getD (s.length / 2) 0) / 2

/-- run_benchmark of the comparative driver, over the per-run outcomes of
time_command (elapsed milliseconds, or -1 for a failed or timed-out run):
keep only the outcomes greater than zero, kept in run order; with no
survivor print FAILED and record nothing, else record statistics over the
survivors. -/
def runBenchmark (nm sh : String) (outcomes : List ℚ) : Option BenchResult :=
  match outcomes.filter (fun t => decide (0 < t)) with
  | [] => none
  | a :: rest =>
    some { name := nm
           shell := sh
           mean_ms := (a :: rest).sum / ((a :: rest).length : ℚ)
           median_ms := statMedian (a :: rest)
           min_ms := rest.foldl min a
           max_ms := rest.foldl max a
           runs := (a :: rest).length }

/-- The record generate_comparison builds per benchmark name present for
both shells. -/
structure CompEntry where
  rush_ms : ℚ
  zsh_ms : ℚ
  speedup : ℚ
  faster : String
  difference_ms : ℚ
  deriving DecidableEq, Repr

/-- The per-name, per-shell grouping of generate_comparison: the nested
dict keeps, for a name and shell, the last result inserted. -/
def lastResult (results : List BenchResult) (nm sh : String) : Option BenchResult :=
  (results.filter (fun r => decide (r.name = nm) && decide (r.shell = sh))).getLast?

/-- generate_comparison at one benchmark name: an entry exists only when
the grouping holds both a rush and a zsh result; speedup is the zsh mean
over the rush mean (guarded to 0 for a non-positive rush mean), rush is
declared faster exactly when speedup exceeds 1. -/
def comparisonEntry (results : List BenchResult) (nm : String) : Option CompEntry :=
  match lastResult results nm "rush", lastResult results nm "zsh" with
  | some r, some z =>
    let speedup := if 0 < r.mean_ms then z.mean_ms / r.mean_ms else 0
    some { rush_ms := r.mean_ms
           zsh_ms := z.mean_ms
           speedup := speedup
           faster := if 1 < speedup then "rush" else "zsh"
           difference_ms := |r.mean_ms - z.mean_ms| }
  | _, _ => none

/-! Codec lemmas -/

theorem leDecode_leEncode4 {x : Nat} (h : x < 4294967296) :
    leDecode (leEncode4 x) = x := by
  simp only [leEncode4, leDecode, List.foldr_cons, List.foldr_nil]
  omega

theorem leEncode4_length (x : Nat) : (leEncode4 x).length = 4 := rfl

theorem chunkSize_le_req (s : StreamState) (n : Nat) : chunkSize s n ≤ n :=
  Nat.min_le_left _ _

theorem chunkSize_le_data (s : StreamState) (n : Nat) :
    chunkSize s n ≤ s.data.length :=
  le_trans (Nat.min_le_right _ _) (Nat.min_le_right _ _)

theorem chunkSize_pos (s : StreamState) (n : Nat) (hd : s.data ≠ []) (hn : 0 < n) :
    0 < chunkSize s n := by
  have h1 : 0 < s.data.length := List.length_pos.mpr hd
  have h2 : 0 < max (s.plan s.idx) 1 := by omega
  simp only [chunkSize]
  omega

theorem recvOnce_fst_length (s : StreamState) (n : Nat) :
    (recvOnce s n).1.length = chunkSize s n := by
  simp only [recvOnce, List.length_take]
  exact Nat.min_eq_left (chunkSize_le_data s n)

theorem recvExactFuel_succ (fuel n : Nat) (s : StreamState) :
    recvExactFuel (fuel + 1) (n + 1) s =
      if (recvOnce s (n + 1)).1.length = 0 then none
      else
        match recvExactFuel fuel (n + 1 - (recvOnce s (n + 1)).1.length)
            (recvOnce s (n + 1)).2 with
        | none => none
        | some p => some ((recvOnce s (n + 1)).1 ++ p.1, p.2) := rfl

theorem recvExactFuel_eof (fuel : Nat) :
    ∀ n s, n ≤ fuel → s.data.length < n → recvExactFuel fuel n s = none := by
  induction fuel with
  | zero =>
    intro n s hn hlt
    have hz : n = 0 := Nat.le_zero.mp hn
    subst hz
    exact absurd hlt (Nat.not_lt_zero _)
  | succ fuel ih =>
    intro n s hn hlt
    match n with
    | 0 => exact absurd hlt (Nat.not_lt_zero _)
    | m + 1 =>
      rw [recvExactFuel_succ, recvOnce_fst_length]
      by_cases hz : chunkSize s (m + 1) = 0
      · rw [if_pos hz]
      · rw [if_neg hz]
        have hk1 : 1 ≤ chunkSize s (m + 1) := Nat.one_le_iff_ne_zero.mpr hz
        have hkd : chunkSize s (m + 1) ≤ s.data.length := chunkSize_le_data s (m + 1)
        have hdat : (recvOnce s (m + 1)).2.data.length =
            s.data.length - chunkSize s (m + 1) := by
          simp [recvOnce, List.length_drop]
        have hrec := ih (m + 1 - chunkSize s (m + 1)) (recvOnce s (m + 1)).2
          (by omega) (by omega)
        rw [hrec]

theorem recvExactFuel_ok (fuel : Nat) :
    ∀ n s, n ≤ fuel → n ≤ s.data.length →
      ∃ j, recvExactFuel fuel n s =
        some (s.data.take n, ⟨s.data.drop n, s.plan, j⟩) := by
  induction fuel with
  | zero =>
    intro n s hn _
    have hz : n = 0 := Nat.le_zero.mp hn
    subst hz
    exact ⟨s.idx, by simp [recvExactFuel]⟩
  | succ fuel ih =>
    intro n s hn hd
    match n with
    | 0 => exact ⟨s.idx, by simp [recvExactFuel]⟩
    | m + 1 =>
      rw [recvExactFuel_succ, recvOnce_fst_length]
      have hpos : 0 < chunkSize s (m + 1) :=
        chunkSize_pos s (m + 1)
          (by intro h; rw [h] at hd; simp at hd) (Nat.succ_pos m)
      rw [if_neg (Nat.pos_iff_ne_zero.mp hpos)]
      have hkn : chunkSize s (m + 1) ≤ m + 1 := chunkSize_le_req s (m + 1)
      have hkd : chunkSize s (m + 1) ≤ s.data.length := chunkSize_le_data s (m + 1)
      have hdat : (recvOnce s (m + 1)).2.data = s.data.drop (chunkSize s (m + 1)) := rfl
      obtain ⟨j, hrec⟩ := ih (m + 1 - chunkSize s (m + 1)) (recvOnce s (m + 1)).2
        (by omega) (by rw [hdat, List.length_drop]; omega)
      refine ⟨j, ?_⟩
      rw [hrec]
      have h1 : (recvOnce s (m + 1)).1 ++
          ((recvOnce s (m + 1)).2.data.take (m + 1 - chunkSize s (m + 1))) =
          s.data.take (m + 1) := by
        rw [hdat]
        show s.data.take (chunkSize s (m + 1)) ++
          (s.data.drop (chunkSize s (m + 1))).take (m + 1 - chunkSize s (m + 1)) = _
        rw [← List.take_add]
        congr 1
        omega
      have h2 : (recvOnce s (m + 1)).2.data.drop (m + 1 - chunkSize s (m + 1)) =
          s.data.drop (m + 1) := by
        rw [hdat, List.drop_drop]
        congr 1
        omega
      have h3 : (recvOnce s (m + 1)).2.plan = s.plan := rfl
      simp only [h1, h2, h3]

theorem recvExact_ok (n : Nat) (s : StreamState) (hd : n ≤ s.data.length) :
    ∃ j, recvExact n s = some (s.data.take n, ⟨s.data.drop n, s.plan, j⟩) :=
  recvExactFuel_ok n n s le_rfl hd

theorem recvExact_eof (n : Nat) (s : StreamState) (hd : s.data.length < n) :
    recvExact n s = none :=
  recvExactFuel_eof n n s le_rfl hd

/-- A full well-formed frame on the stream decodes to its body's payload
and correlation id, for every chunking plan. -/
theorem recvMessageBytes_frame (b : List Nat) (plan : Nat → Nat) (i : Nat)
    (h4 : 4 ≤ b.length) (hlen : b.length < 4294967296) :
    recvMessageBytes ⟨leEncode4 b.length ++ b, plan, i⟩ =
      .ok (b.drop 4, leDecode (b.take 4)) := by
  have hd : (4 : Nat) ≤ (leEncode4 b.length ++ b).length := by
    simp [List.length_append, leEncode4_length]
  obtain ⟨j1, h1⟩ := recvExact_ok 4 ⟨leEncode4 b.length ++ b, plan, i⟩ hd
  have htake : (leEncode4 b.length ++ b).take 4 = leEncode4 b.length := by
    have := List.take_left (leEncode4 b.length) b
    rwa [leEncode4_length] at this
  have hdrop : (leEncode4 b.length ++ b).drop 4 = b := by
    have := List.drop_left (leEncode4 b.length) b
    rwa [leEncode4_length] at this
  simp only [recvMessageBytes, h1, htake, hdrop, leDecode_leEncode4 hlen]
  obtain ⟨j2, h2⟩ := recvExact_ok b.length ⟨b, plan, j1⟩ le_rfl
  simp only at h2
  rw [List.take_length] at h2
  simp only [h2]
  rw [if_neg (by omega)]

/-- C1. Framing round-trip: for every serializable message M (any message
whose deserialization inverts its serialization, as json loads does for
json dumps) and every 32-bit correlation id C, decoding the bytes
send_message produces with id C yields exactly (M, C); moreover the
length field of those bytes equals 4 plus the payload length, and the 4
bytes after it are C little-endian. Holds for every chunking of the
stream. -/
theorem framing_roundtrip {α : Type} (dumps : α → List Nat)
    (loads : List Nat → Option α) (M : α) (C : Nat) (plan : Nat → Nat) (i : Nat)
    (hload : loads (dumps M) = some M) (hC : C < 4294967296)
    (hlen : (dumps M).length + 4 < 4294967296) :
    recvMessage loads ⟨sendMessageBytes C (dumps M), plan, i⟩ = .ok (M, C)
    ∧ leDecode ((sendMessageBytes C (dumps M)).take 4) = (dumps M).length + 4
    ∧ ((sendMessageBytes C (dumps M)).drop 4).take 4 = leEncode4 C := by
  have hblen : (leEncode4 C ++ dumps M).length = (dumps M).length + 4 := by
    simp [List.length_append, leEncode4_length, Nat.add_comm]
  have hb : sendMessageBytes C (dumps M) =
      leEncode4 ((leEncode4 C ++ dumps M).length) ++ (leEncode4 C ++ dumps M) := by
    rw [hblen]
    simp [sendMessageBytes]
  have hbtake : (leEncode4 C ++ dumps M).take 4 = leEncode4 C := by
    have := List.take_left (leEncode4 C) (dumps M)
    rwa [leEncode4_length] at this
  have hbdrop : (leEncode4 C ++ dumps M).drop 4 = dumps M := by
    have := List.drop_left (leEncode4 C) (dumps M)
    rwa [leEncode4_length] at this
  have hframe := recvMessageBytes_frame (leEncode4 C ++ dumps M) plan i
    (by omega) (by omega)
  rw [hbtake, hbdrop, leDecode_leEncode4 hC] at hframe
  refine ⟨?_, ?_, ?_⟩
  · rw [hb]
    simp only [recvMessage, hframe, hload]
  · have ht : (sendMessageBytes C (dumps M)).take 4 =
        leEncode4 ((dumps M).length + 4) := by
      rw [hb, hblen]
      have := List.take_left (leEncode4 ((dumps M).length + 4))
        (leEncode4 C ++ dumps M)
      rwa [leEncode4_length] at this
    rw [ht, leDecode_leEncode4 (by omega)]
  · have hd : (sendMessageBytes C (dumps M)).drop 4 = leEncode4 C ++ dumps M := by
      rw [hb]
      have := List.drop_left (leEncode4 ((leEncode4 C ++ dumps M).length))
        (leEncode4 C ++ dumps M)
      rwa [leEncode4_length] at this
    rw [hd, hbtake]

/-- Witness for C1 at message 7 (serialized as its 4 little-endian
bytes), correlation id 5, one-byte chunking. -/
theorem framing_roundtrip_witness :
    recvMessage (fun l => some (leDecode l))
        ⟨sendMessageBytes 5 (leEncode4 7), fun _ => 1, 0⟩ = .ok (7, 5)
    ∧ leDecode ((sendMessageBytes 5 (leEncode4 7)).take 4) = (leEncode4 7).length + 4
    ∧ ((sendMessageBytes 5 (leEncode4 7)).drop 4).take 4 = leEncode4 5 :=
  framing_roundtrip leEncode4 (fun l => some (leDecode l)) 7 5 (fun _ => 1) 0
    (by decide) (by decide) (by decide)

/-- C2. Truncation detection: whenever the stream ends before the 4
length bytes, or before the declared count of body bytes, has been
delivered, recv_message fails with the ConnectionError and never returns
a decoded message — for every chunking of the delivered bytes and every
payload decoder. -/
theorem truncated_frame_connection_closed {α : Type} (loads : List Nat → Option α)
    (bs : List Nat) (plan : Nat → Nat) (i : Nat)
    (h : bs.length < 4 + leDecode (bs.take 4)) :
    recvMessage loads ⟨bs, plan, i⟩ = .error .connClosed := by
  by_cases h4 : bs.length < 4
  · have he := recvExact_eof 4 ⟨bs, plan, i⟩ h4
    simp [recvMessage, recvMessageBytes, he]
  · push_neg at h4
    obtain ⟨j, h1⟩ := recvExact_ok 4 ⟨bs, plan, i⟩ h4
    have h2 : recvExact (leDecode (bs.take 4)) ⟨bs.drop 4, plan, j⟩ = none := by
      apply recvExact_eof
      simp only [List.length_drop]
      omega
    simp [recvMessage, recvMessageBytes, h1, h2]

/-- Witness for C2: a stream declaring a 10-byte body but delivering only
2 body bytes, chunked 3 bytes at a time. -/
theorem truncated_frame_connection_closed_witness :
    recvMessage (fun l => some l) ⟨[10, 0, 0, 0, 1, 2], fun _ => 3, 0⟩ =
      .error .connClosed :=
  truncated_frame_connection_closed (fun l => some l) [10, 0, 0, 0, 1, 2]
    (fun _ => 3) 0 (by decide)

/-- C9. Correlation-id independence: execute_command discards the id of
the received response and never compares it with the request id (which
send_message defaults to 1): two response frames whose bodies differ only
in the 4-byte correlation id field deliver the same result to the caller,
and the frame execute_command sends carries id 1. -/
theorem correlation_id_independence {α : Type} (loads : List Nat → Option α)
    (b₁ b₂ : List Nat) (plan₁ plan₂ : Nat → Nat) (i₁ i₂ : Nat)
    (h41 : 4 ≤ b₁.length) (h42 : 4 ≤ b₂.length)
    (hdrop : b₁.drop 4 = b₂.drop 4)
    (hlen1 : b₁.length < 4294967296) (hlen2 : b₂.length < 4294967296) :
    (recvMessage loads ⟨leEncode4 b₁.length ++ b₁, plan₁, i₁⟩).map Prod.fst =
      (recvMessage loads ⟨leEncode4 b₂.length ++ b₂, plan₂, i₂⟩).map Prod.fst
    ∧ ∀ p, ((executeSendFrame p).drop 4).take 4 = leEncode4 1 := by
  constructor
  · have hf1 := recvMessageBytes_frame b₁ plan₁ i₁ h41 hlen1
    have hf2 := recvMessageBytes_frame b₂ plan₂ i₂ h42 hlen2
    simp only [recvMessage, hf1, hf2, hdrop]
    cases loads (List.drop 4 b₂) <;> rfl
  · intro p
    have hd : (executeSendFrame p).drop 4 = leEncode4 1 ++ p := by
      show (leEncode4 (p.length + 4) ++ (leEncode4 1 ++ p)).drop 4 = _
      have := List.drop_left (leEncode4 (p.length + 4)) (leEncode4 1 ++ p)
      rwa [leEncode4_length] at this
    rw [hd]
    have := List.take_left (leEncode4 1) p
    rwa [leEncode4_length] at this

/-- Witness for C9: two response bodies differing only in the id field
(ids 1 and 2, same payload byte), under different chunking plans. -/
theorem correlation_id_independence_witness :
    (recvMessage (fun l => some l)
        ⟨leEncode4 ([1, 0, 0, 0, 9] : List Nat).length ++ [1, 0, 0, 0, 9],
         fun _ => 2, 0⟩).map Prod.fst =
      (recvMessage (fun l => some l)
        ⟨leEncode4 ([2, 0, 0, 0, 9] : List Nat).length ++ [2, 0, 0, 0, 9],
         fun _ => 1, 4⟩).map Prod.fst
    ∧ ∀ p, ((executeSendFrame p).drop 4).take 4 = leEncode4 1 :=
  correlation_id_independence (fun l => some l) [1, 0, 0, 0, 9] [2, 0, 0, 0, 9]
    (fun _ => 2) (fun _ => 1) 0 4 (by decide) (by decide) (by decide)
    (by decide) (by decide)

/-! Summary lemmas -/

theorem foldl_min_mem (l : List ℚ) : ∀ a : ℚ, l.foldl min a ∈ a :: l := by
  induction l with
  | nil => intro a; simp
  | cons x xs ih =>
    intro a
    simp only [List.foldl_cons]
    rcases List.mem_cons.mp (ih (min a x)) with hm | hm
    · rcases min_choice a x with hax | hax
      · rw [hm, hax]; exact List.mem_cons_self _ _
      · rw [hm, hax]; exact List.mem_cons_of_mem _ (List.mem_cons_self _ _)
    · exact List.mem_cons_of_mem _ (List.mem_cons_of_mem _ hm)

theorem foldl_min_le (l : List ℚ) : ∀ a : ℚ, ∀ x ∈ a :: l, l.foldl min a ≤ x := by
  induction l with
  | nil =>
    intro a x hx
    simp only [List.mem_singleton] at hx
    simp [hx]
  | cons y ys ih =>
    intro a x hx
    simp only [List.foldl_cons]
    rcases List.mem_cons.mp hx with h1 | hx'
    · rw [h1]
      exact le_trans (ih (min a y) _ (List.mem_cons_self _ _)) (min_le_left a y)
    · rcases List.mem_cons.mp hx' with h2 | hx''
      · rw [h2]
        exact le_trans (ih (min a y) _ (List.mem_cons_self _ _)) (min_le_right a y)
      · exact ih (min a y) x (List.mem_cons_of_mem _ hx'')

theorem foldl_max_mem (l : List ℚ) : ∀ a : ℚ, l.foldl max a ∈ a :: l := by
  induction l with
  | nil => intro a; simp
  | cons x xs ih =>
    intro a
    simp only [List.foldl_cons]
    rcases List.mem_cons.mp (ih (max a x)) with hm | hm
    · rcases max_choice a x with hax | hax
      · rw [hm, hax]; exact List.mem_cons_self _ _
      · rw [hm, hax]; exact List.mem_cons_of_mem _ (List.mem_cons_self _ _)
    · exact List.mem_cons_of_mem _ (List.mem_cons_of_mem _ hm)

theorem le_foldl_max (l : List ℚ) : ∀ a : ℚ, ∀ x ∈ a :: l, x ≤ l.foldl max a := by
  induction l with
  | nil =>
    intro a x hx
    simp only [List.mem_singleton] at hx
    simp [hx]
  | cons y ys ih =>
    intro a x hx
    simp only [List.foldl_cons]
    rcases List.mem_cons.mp hx with h1 | hx'
    · rw [h1]
      exact le_trans (le_max_left a y) (ih (max a y) _ (List.mem_cons_self _ _))
    · rcases List.mem_cons.mp hx' with h2 | hx''
      · rw [h2]
        exact le_trans (le_max_right a y) (ih (max a y) _ (List.mem_cons_self _ _))
      · exact ih (max a y) x (List.mem_cons_of_mem _ hx'')

theorem getD_of_lt {l : List ℚ} {i : Nat} (h : i < l.length) :
    l[i]? = some (l.getD i 0) := by
  rw [List.getD_eq_getElem?_getD, List.getElem?_eq_getElem h]
  rfl

/-- C3. Summary correctness: for every non-empty sample, the summary main
derives equals: count the sample size, mean the sum over the count, min
and max the least and greatest sample elements, and median, p95 and p99
the elements of the ascending-sorted sample (any sorted permutation s of
the sample) at 0-based indices n / 2, floor of 0.95 n and floor of
0.99 n. -/
theorem benchmark_summary_correct (times : List ℚ) (h : times ≠ [])
    (s : List ℚ) (hperm : s.Perm times) (hsort : s.Sorted (· ≤ ·)) :
    ∃ y, summarize times = some y ∧
      y.iterations = times.length ∧
      y.times_ms = s ∧
      y.mean_ms = times.sum / (times.length : ℚ) ∧
      y.min_ms ∈ times ∧ (∀ x ∈ times, y.min_ms ≤ x) ∧
      y.max_ms ∈ times ∧ (∀ x ∈ times, x ≤ y.max_ms) ∧
      s[times.length / 2]? = some y.median_ms ∧
      s[times.length * 95 / 100]? = some y.p95_ms ∧
      s[times.length * 99 / 100]? = some y.p99_ms := by
  have hs0p : (List.insertionSort (· ≤ ·) times).Perm times :=
    List.perm_insertionSort _ _
  have hs0s : (List.insertionSort (· ≤ ·) times).Sorted (· ≤ ·) :=
    List.sorted_insertionSort _ _
  have hss : s = List.insertionSort (· ≤ ·) times :=
    List.eq_of_perm_of_sorted (hperm.trans hs0p.symm) hsort hs0s
  have hlen : (List.insertionSort (· ≤ ·) times).length = times.length :=
    hs0p.length_eq
  have hne : List.insertionSort (· ≤ ·) times ≠ [] := by
    intro hnil
    rw [hnil] at hlen
    exact h (List.eq_nil_of_length_eq_zero hlen.symm)
  obtain ⟨a, rest, hcons⟩ := List.exists_cons_of_ne_nil hne
  have hlen' : (a :: rest).length = times.length := by rw [← hcons]; exact hlen
  have hpos : 0 < times.length := by
    rcases times with _ | _
    · exact absurd rfl h
    · simp
  refine ⟨_, by rw [summarize, hcons], ?_, ?_, ?_, ?_, ?_, ?_, ?_, ?_, ?_, ?_⟩
  · exact hlen'
  · rw [hss, hcons]
  · have hsum : (a :: rest).sum = times.sum := by
      rw [← hcons]; exact hs0p.sum_eq
    rw [hsum, hlen']
  · have := foldl_min_mem rest a
    rw [← hcons] at this
    exact hs0p.mem_iff.mp this
  · intro x hx
    have hx' : x ∈ a :: rest := by rw [← hcons]; exact hs0p.mem_iff.mpr hx
    exact foldl_min_le rest a x hx'
  · have := foldl_max_mem rest a
    rw [← hcons] at this
    exact hs0p.mem_iff.mp this
  · intro x hx
    have hx' : x ∈ a :: rest := by rw [← hcons]; exact hs0p.mem_iff.mpr hx
    exact le_foldl_max rest a x hx'
  · rw [hss, hcons, ← hlen']
    exact getD_of_lt (Nat.div_lt_self (hlen' ▸ hpos) one_lt_two)
  · rw [hss, hcons, ← hlen']
    refine getD_of_lt ?_
    rw [Nat.div_lt_iff_lt_mul (by norm_num : (0 : Nat) < 100)]
    have : 0 < (a :: rest).length := by simp
    omega
  · rw [hss, hcons, ← hlen']
    refine getD_of_lt ?_
    rw [Nat.div_lt_iff_lt_mul (by norm_num : (0 : Nat) < 100)]
    have : 0 < (a :: rest).length := by simp
    omega

/-- Witness for C3 at the spec's two examples: the sample 5, 1, 3, 2, 4
yields min 1, max 5, mean 3, median 3; the sorted 100-element sample 1
to 100 yields p95 = 96 and p99 = 100. -/
theorem benchmark_summary_correct_witness :
    (∃ y, summarize [(5 : ℚ), 1, 3, 2, 4] = some y ∧
      y.iterations = 5 ∧ y.times_ms = [1, 2, 3, 4, 5] ∧ y.mean_ms = 3 ∧
      y.min_ms = 1 ∧ y.max_ms = 5 ∧ y.median_ms = 3)
    ∧ (∃ z, summarize ((List.range 100).map fun k : Nat => ((k : ℚ) + 1)) = some z ∧
      z.p95_ms = 96 ∧ z.p99_ms = 100) := by
  constructor
  · obtain ⟨y, hy, hit, hts, hmean, hminmem, hminle, hmaxmem, hmaxle, hmed, h95, h99⟩ :=
      benchmark_summary_correct [(5 : ℚ), 1, 3, 2, 4] (by decide) [1, 2, 3, 4, 5]
        (by decide) (by decide)
    refine ⟨y, hy, by simpa using hit, hts, ?_, ?_, ?_, ?_⟩
    · rw [hmean]
      norm_num
    · have h1 := hminle 1 (by decide)
      have h2 : ∀ x ∈ [(5 : ℚ), 1, 3, 2, 4], 1 ≤ x := by decide
      exact le_antisymm h1 (h2 _ hminmem)
    · have h1 := hmaxle 5 (by decide)
      have h2 : ∀ x ∈ [(5 : ℚ), 1, 3, 2, 4], x ≤ 5 := by decide
      exact le_antisymm (h2 _ hmaxmem) h1
    · have hv : ([(1 : ℚ), 2, 3, 4, 5])[([(5 : ℚ), 1, 3, 2, 4].length) / 2]? =
          some 3 := by decide
      rw [hv] at hmed
      exact (Option.some.inj hmed).symm
  · have hsorted :
        ((List.range 100).map fun k : Nat => ((k : ℚ) + 1)).Sorted (· ≤ ·) := by
      rw [List.Sorted, List.pairwise_map]
      refine (List.pairwise_lt_range 100).imp ?_
      intro a b hab
      have : (a : ℚ) ≤ b := by exact_mod_cast hab.le
      linarith
    obtain ⟨z, hz, hit, hts, hmean, hminmem, hminle, hmaxmem, hmaxle, hmed, h95, h99⟩ :=
      benchmark_summary_correct ((List.range 100).map fun k : Nat => ((k : ℚ) + 1))
        (by simp) ((List.range 100).map fun k : Nat => ((k : ℚ) + 1))
        (List.Perm.refl _) hsorted
    refine ⟨z, hz, ?_, ?_⟩
    · have hlen : ((List.range 100).map fun k : Nat => ((k : ℚ) + 1)).length = 100 := by
        simp
      rw [hlen] at h95
      have hidx : (100 * 95 / 100 : Nat) = 95 := by norm_num
      rw [hidx] at h95
      have hv : ((List.range 100).map fun k : Nat => ((k : ℚ) + 1))[(95 : Nat)]? =
          some 96 := by
        rw [List.getElem?_map, List.getElem?_range (by norm_num)]
        norm_num
      rw [hv] at h95
      exact (Option.some.inj h95).symm
    · have hlen : ((List.range 100).map fun k : Nat => ((k : ℚ) + 1)).length = 100 := by
        simp
      rw [hlen] at h99
      have hidx : (100 * 99 / 100 : Nat) = 99 := by norm_num
      rw [hidx] at h99
      have hv : ((List.range 100).map fun k : Nat => ((k : ℚ) + 1))[(99 : Nat)]? =
          some 100 := by
        rw [List.getElem?_map, List.getElem?_range (by norm_num)]
        norm_num
      rw [hv] at h99
      exact (Option.some.inj h99).symm

/-! Harness lemmas -/

theorem runWarmup_ok (call : Nat → Except String ℚ) :
    ∀ c start, (∀ i, start ≤ i → i < start + c → ∃ v, call i = .ok v) →
      runWarmup call start c = none := by
  intro c
  induction c with
  | zero => intro start _; rfl
  | succ c ih =>
    intro start h
    obtain ⟨v, hv⟩ := h start le_rfl (by omega)
    show runWarmup call start (c + 1) = none
    rw [runWarmup, hv]
    exact ih (start + 1) (fun i h1 h2 => h i (by omega) (by omega))

theorem runWarmup_err (call : Nat → Except String ℚ) :
    ∀ c start j e, start ≤ j → j < start + c → call j = .error e →
      (∀ i, start ≤ i → i < j → ∃ v, call i = .ok v) →
      runWarmup call start c = some e := by
  intro c
  induction c with
  | zero => intro start j e h1 h2 _ _; omega
  | succ c ih =>
    intro start j e h1 h2 hj hpre
    show runWarmup call start (c + 1) = some e
    rcases Nat.eq_or_lt_of_le h1 with rfl | hlt
    · rw [runWarmup, hj]
    · obtain ⟨v, hv⟩ := hpre start le_rfl hlt
      rw [runWarmup, hv]
      exact ih (start + 1) j e hlt (by omega) hj
        (fun i hi1 hi2 => hpre i (by omega) hi2)

theorem runMeasure_ok (call : Nat → Except String ℚ) (lat : Nat → ℚ) :
    ∀ c start, (∀ i, start ≤ i → i < start + c → call i = .ok (lat i)) →
      runMeasure call start c = .ok ((List.range c).map fun j => lat (start + j)) := by
  intro c
  induction c with
  | zero => intro start _; rfl
  | succ c ih =>
    intro start h
    have hv := h start le_rfl (by omega)
    show runMeasure call start (c + 1) = _
    rw [runMeasure, hv, ih (start + 1) (fun i h1 h2 => h i (by omega) (by omega))]
    rw [List.range_succ_eq_map, List.map_cons, List.map_map]
    show Except.ok (lat (start + 0) :: _) = Except.ok (lat start :: _)
    have h0 : start + 0 = start := rfl
    rw [h0]
    have hcong : (List.range c).map ((fun j => lat (start + j)) ∘ Nat.succ) =
        (List.range c).map fun j => lat (start + 1 + j) := by
      refine List.map_congr_left ?_
      intro a _
      show lat (start + (a + 1)) = lat (start + 1 + a)
      congr 1
      omega
    rw [hcong]

theorem runMeasure_err (call : Nat → Except String ℚ) :
    ∀ c start j e, start ≤ j → j < start + c → call j = .error e →
      (∀ i, start ≤ i → i < j → ∃ v, call i = .ok v) →
      runMeasure call start c = .error e := by
  intro c
  induction c with
  | zero => intro start j e h1 h2 _ _; omega
  | succ c ih =>
    intro start j e h1 h2 hj hpre
    show runMeasure call start (c + 1) = .error e
    rcases Nat.eq_or_lt_of_le h1 with rfl | hlt
    · rw [runMeasure, hj]
    · obtain ⟨v, hv⟩ := hpre start le_rfl hlt
      rw [runMeasure, hv,
        ih (start + 1) j e hlt (by omega) hj
          (fun i hi1 hi2 => hpre i (by omega) hi2)]
      rfl

theorem summarize_some (times : List ℚ) (h : times ≠ []) :
    ∃ y, summarize times = some y := by
  have hlen : (List.insertionSort (· ≤ ·) times).length = times.length :=
    (List.perm_insertionSort _ _).length_eq
  have hne : List.insertionSort (· ≤ ·) times ≠ [] := by
    intro hnil
    rw [hnil] at hlen
    exact h (List.eq_nil_of_length_eq_zero hlen.symm)
  obtain ⟨a, rest, hcons⟩ := List.exists_cons_of_ne_nil hne
  exact ⟨_, by rw [summarize, hcons]⟩

/-- C4 (amended). In the daemon client, any call failure during warmup or
measurement aborts the run at once with no summary: the first warmup
failure is caught and reported as the printed warmup-failure message (the
error text, with no iteration index) with exit status 1, and the first
measurement failure propagates as an uncaught exception with no output.
The comparative cross-shell driver, by contrast, drops failed calls from
its sample and continues (see the counterexample). -/
theorem fatal_propagation (w n : Nat) (call : Nat → Except String ℚ) :
    (∀ j e, j < w → call j = .error e →
      (∀ i, i < j → ∃ v, call i = .ok v) →
      runMain w n call = .warmupFailed ("Warmup failed: " ++ e))
    ∧ (∀ j e, w ≤ j → j < w + n → call j = .error e →
        (∀ i, i < j → ∃ v, call i = .ok v) →
        runMain w n call = .measurementFailed e) := by
  constructor
  · intro j e hj hje hpre
    have hw : runWarmup call 0 w = some e :=
      runWarmup_err call w 0 j e (Nat.zero_le _) (by omega) hje
        (fun i _ hi => hpre i hi)
    rw [runMain, hw]
  · intro j e hwj hj hje hpre
    have hw : runWarmup call 0 w = none :=
      runWarmup_ok call w 0 (fun i _ hi => hpre i (by omega))
    have hm : runMeasure call w n = .error e :=
      runMeasure_err call n w j e hwj (by omega) hje (fun i hi1 hi2 => hpre i hi2)
    rw [runMain, hw, hm]

/-- Counterexample to C4 as stated: the comparative driver's per-run loop
catches a failed call (time_command returned -1), drops it from the
sample, and continues — two runs of which the first failed still produce
a recorded one-run result instead of aborting. -/
theorem fatal_propagation_cex :
    runBenchmark "echo" "rush" [-1, 5] =
      some { name := "echo", shell := "rush", mean_ms := 5, median_ms := 5,
             min_ms := 5, max_ms := 5, runs := 1 } := by
  have hfil : (([-1, 5] : List ℚ).filter fun t => decide (0 < t)) = [5] := by
    norm_num [List.filter]
  rw [runBenchmark, hfil]
  norm_num [statMedian, List.insertionSort, List.orderedInsert]

/-- Witness for C4: a run whose first call fails in warmup exits with the
printed message, and a run whose second call (the measurement call) fails
aborts with that error. -/
theorem fatal_propagation_witness :
    runMain 1 1 (fun i => if i = 0 then .error "refused" else .ok 1) =
      .warmupFailed ("Warmup failed: " ++ "refused")
    ∧ runMain 1 1 (fun i => if i = 1 then .error "late" else .ok 1) =
      .measurementFailed "late" := by
  constructor
  · exact (fatal_propagation 1 1 _).1 0 "refused" (by omega) rfl
      (fun i hi => absurd hi (by omega))
  · exact (fatal_propagation 1 1 _).2 1 "late" le_rfl (by omega) rfl
      (fun i hi => ⟨1, by
        have h0 : i = 0 := by omega
        rw [h0]
        rfl⟩)

/-- C5. Warmup isolation: when every call succeeds, the run finishes and
the sample fed to the summary is exactly the n measurement-phase elapsed
times (calls w to w+n-1) in call order, before sorting; the warmup
latencies do not appear in it, and changing them (or anything about the
warmup calls that still succeeds) cannot change the outcome. -/
theorem warmup_isolation (w n : Nat) (call : Nat → Except String ℚ)
    (lat : Nat → ℚ) (hok : ∀ i, i < w + n → call i = .ok (lat i)) (hn : n ≠ 0) :
    (∃ y, runMain w n call = .finished y ∧
      summarize ((List.range n).map fun j => lat (w + j)) = some y)
    ∧ ∀ (call' : Nat → Except String ℚ) (lat' : Nat → ℚ),
        (∀ i, i < w + n → call' i = .ok (lat' i)) →
        (∀ i, w ≤ i → i < w + n → lat' i = lat i) →
        runMain w n call' = runMain w n call := by
  have key : ∀ (c : Nat → Except String ℚ) (l : Nat → ℚ),
      (∀ i, i < w + n → c i = .ok (l i)) →
      ∃ y, runMain w n c = .finished y ∧
        summarize ((List.range n).map fun j => l (w + j)) = some y := by
    intro c l hc
    have hsample : ((List.range n).map fun j => l (w + j)) ≠ [] := by
      intro hnil
      apply hn
      have := congrArg List.length hnil
      simpa using this
    obtain ⟨y, hy⟩ := summarize_some _ hsample
    refine ⟨y, ?_, hy⟩
    have hw : runWarmup c 0 w = none :=
      runWarmup_ok c w 0 (fun i _ hi => ⟨l i, hc i (by omega)⟩)
    have hm : runMeasure c w n = .ok ((List.range n).map fun j => l (w + j)) :=
      runMeasure_ok c l n w (fun i hi1 hi2 => hc i (by omega))
    rw [runMain, hw, hm]
    simp only [hy]
  constructor
  · exact key call lat hok
  · intro call' lat' hok' hagree
    obtain ⟨y, hy, hys⟩ := key call lat hok
    obtain ⟨y', hy', hys'⟩ := key call' lat' hok'
    have hsame : ((List.range n).map fun j => lat' (w + j)) =
        ((List.range n).map fun j => lat (w + j)) := by
      refine List.map_congr_left ?_
      intro a ha
      exact hagree (w + a) (by omega) (by
        have := List.mem_range.mp ha
        omega)
    rw [hsame, hys] at hys'
    rw [hy, hy', Option.some.inj hys']

/-- Witness for C5 with 2 warmup calls and 1 measurement call, every call
returning its own index as the latency. -/
theorem warmup_isolation_witness :
    ∃ y, runMain 2 1 (fun i => .ok ((i : ℚ))) = .finished y ∧
      summarize ((List.range 1).map fun j => (((2 + j : Nat) : ℚ))) = some y :=
  (warmup_isolation 2 1 (fun i => .ok ((i : ℚ))) (fun i => ((i : ℚ)))
    (fun i _ => rfl) (by omega)).1

/-- C10. Non-empty-sample precondition: with an iteration count of 0 and
a successful warmup, main reaches the summary with an empty sample and
fails there (the builtin min of an empty sequence raises) instead of
producing a zero-count summary, so the interface effectively requires at
least one iteration. -/
theorem zero_iterations_summary_fails (w : Nat) (call : Nat → Except String ℚ)
    (hok : ∀ i, i < w → ∃ v, call i = .ok v) :
    runMain w 0 call = .summaryError
    ∧ summarize ([] : List ℚ) = none
    ∧ ∀ y, runMain w 0 call ≠ .finished y := by
  have hw : runWarmup call 0 w = none :=
    runWarmup_ok call w 0 (fun i _ hi => hok i (by omega))
  have hmain : runMain w 0 call = .summaryError := by
    rw [runMain, hw]
    rfl
  exact ⟨hmain, rfl, fun y hy => by rw [hmain] at hy; exact MainOutcome.noConfusion hy⟩

/-- Witness for C10 with one always-succeeding warmup call. -/
theorem zero_iterations_summary_fails_witness :
    runMain 1 0 (fun _ => .ok 1) = .summaryError
    ∧ summarize ([] : List ℚ) = none
    ∧ ∀ y, runMain 1 0 (fun _ => .ok 1) ≠ .finished y :=
  zero_iterations_summary_fails 1 (fun _ => .ok 1) (fun _ _ => ⟨1, rfl⟩)

/-- C6 (amended). Measured-latency extent: execute_command starts its
clock immediately before connecting, and the elapsed time it returns
covers connect plus request send plus response receive — but not the
connection close, which happens only after the clock is stopped. -/
theorem measured_latency_extent (cost : ClientStep → ℚ) :
    elapsedMs cost =
      cost .connect + cost .sendRequest + cost .recvResponse
    ∧ executeCommandTrace.dropWhile (· != ClientStep.clockStop) =
        [ClientStep.clockStop, ClientStep.closeSocket]
    ∧ (executeCommandTrace.dropWhile (· != ClientStep.clockStart)).take 2 =
        [ClientStep.clockStart, ClientStep.connect] := by
  refine ⟨?_, by rfl, by rfl⟩
  show (cost .connect + (cost .sendRequest + (cost .recvResponse + 0))) = _
  ring

/-- Counterexample to C6 as stated: the elapsed time does not include the
disconnect cost — with a cost of 1 on the socket close and 0 elsewhere
the measured latency is 0, not the sum including the close. -/
theorem measured_latency_extent_cex :
    ¬ ∀ cost : ClientStep → ℚ, elapsedMs cost =
      cost .connect + cost .sendRequest + cost .recvResponse
        + cost .closeSocket := by
  intro hall
  have h := hall (fun s => if s = ClientStep.closeSocket then 1 else 0)
  have hl : elapsedMs (fun s => if s = ClientStep.closeSocket then (1 : ℚ) else 0) = 0 := by
    show ((0 : ℚ) + (0 + (0 + 0))) = 0
    norm_num
  rw [hl] at h
  simp at h

/-! Comparative driver lemmas -/

theorem getLast?_mem_of_eq {α : Type} {l : List α} {a : α}
    (h : l.getLast? = some a) : a ∈ l := by
  obtain ⟨hne, heq⟩ := List.mem_getLast?_eq_getLast (Option.mem_def.mpr h)
  rw [heq]
  exact List.getLast_mem hne

theorem lastResult_isSome (results : List BenchResult) (nm sh : String) :
    (lastResult results nm sh).isSome ↔
      ∃ r ∈ results, r.name = nm ∧ r.shell = sh := by
  rw [lastResult, List.getLast?_isSome]
  constructor
  · intro hne
    obtain ⟨r, hr⟩ := List.exists_mem_of_ne_nil _ hne
    have hmem := List.mem_filter.mp hr
    refine ⟨r, hmem.1, ?_⟩
    have := hmem.2
    simp only [Bool.and_eq_true, decide_eq_true_eq] at this
    exact this
  · intro ⟨r, hr, hn, hs⟩
    intro hnil
    have : r ∈ List.filter
        (fun r => decide (r.name = nm) && decide (r.shell = sh)) results := by
      rw [List.mem_filter]
      exact ⟨hr, by simp [hn, hs]⟩
    rw [hnil] at this
    exact List.not_mem_nil r this

theorem lastResult_mem {results : List BenchResult} {nm sh : String}
    {r : BenchResult} (h : lastResult results nm sh = some r) :
    r ∈ results ∧ r.name = nm ∧ r.shell = sh := by
  have hmem := List.mem_filter.mp (getLast?_mem_of_eq h)
  refine ⟨hmem.1, ?_⟩
  have := hmem.2
  simp only [Bool.and_eq_true, decide_eq_true_eq] at this
  exact this

/-- C7. Comparison exclusion: a benchmark name has a comparison entry
exactly when both a rush result and a zsh result were recorded for it;
and a benchmark every one of whose runs failed records no result at all
(so a name that succeeded only under the other shell is absent from the
comparison while its raw result remains). -/
theorem comparison_exclusion (results : List BenchResult) (nm : String) :
    ((comparisonEntry results nm).isSome ↔
      (∃ r ∈ results, r.name = nm ∧ r.shell = "rush") ∧
      (∃ r ∈ results, r.name = nm ∧ r.shell = "zsh"))
    ∧ ∀ (nm' sh : String) (outcomes : List ℚ),
        (∀ t ∈ outcomes, t ≤ (0 : ℚ)) → runBenchmark nm' sh outcomes = none := by
  constructor
  · rw [← lastResult_isSome results nm "rush", ← lastResult_isSome results nm "zsh"]
    cases h1 : lastResult results nm "rush" <;>
      cases h2 : lastResult results nm "zsh" <;>
        simp [comparisonEntry, h1, h2]
  · intro nm' sh outcomes hall
    have hfil : outcomes.filter (fun t => decide (0 < t)) = [] := by
      rw [List.filter_eq_nil_iff]
      intro t ht
      simp only [decide_eq_true_eq]
      exact not_lt.mpr (hall t ht)
    rw [runBenchmark, hfil]

/-- Witness for C7: with only a zsh result recorded for the name, the
comparison entry is absent, and a benchmark whose two runs both failed
records no result. -/
theorem comparison_exclusion_witness :
    ((comparisonEntry [⟨"X", "zsh", 4, 4, 4, 4, 1⟩] "X").isSome ↔
      (∃ r ∈ [(⟨"X", "zsh", 4, 4, 4, 4, 1⟩ : BenchResult)],
        r.name = "X" ∧ r.shell = "rush") ∧
      (∃ r ∈ [(⟨"X", "zsh", 4, 4, 4, 4, 1⟩ : BenchResult)],
        r.name = "X" ∧ r.shell = "zsh"))
    ∧ runBenchmark "X" "rush" [-1, -1] = none :=
  ⟨(comparison_exclusion [⟨"X", "zsh", 4, 4, 4, 4, 1⟩] "X").1,
   (comparison_exclusion [⟨"X", "zsh", 4, 4, 4, 4, 1⟩] "X").2 "X" "rush" [-1, -1]
     (by norm_num)⟩

/-- C8. Speedup and winner rule: every comparison entry built from
recorded results (whose means are positive, as every recorded mean is)
has speedup equal to the zsh mean divided by the rush mean, and rush is
declared the faster side exactly when the speedup exceeds 1; a speedup of
exactly 1 goes to zsh, a non-positive rush mean goes to zsh, and every
result run_benchmark records indeed has a positive mean. -/
theorem speedup_winner_rule (results : List BenchResult) (nm : String)
    (e : CompEntry) (hpos : ∀ r ∈ results, 0 < r.mean_ms)
    (h : comparisonEntry results nm = some e) :
    e.speedup = e.zsh_ms / e.rush_ms
    ∧ (e.faster = "rush" ↔ 1 < e.speedup)
    ∧ (e.speedup = 1 → e.faster = "zsh")
    ∧ (∀ (results' : List BenchResult) (nm' : String) (e' : CompEntry),
        comparisonEntry results' nm' = some e' → e'.rush_ms ≤ 0 →
          e'.faster = "zsh")
    ∧ (∀ (nm' sh : String) (outcomes : List ℚ) (r : BenchResult),
        runBenchmark nm' sh outcomes = some r → 0 < r.mean_ms) := by
  have hwin : ∀ e' : CompEntry,
      e'.faster = (if 1 < e'.speedup then "rush" else "zsh") →
      (e'.faster = "rush" ↔ 1 < e'.speedup) := by
    intro e' hf
    by_cases hsp : 1 < e'.speedup
    · rw [hf, if_pos hsp]
      simp [hsp]
    · rw [hf, if_neg hsp]
      constructor
      · intro hz
        exact absurd hz (by simp)
      · intro hz
        exact absurd hz hsp
  have hentry : ∀ (results' : List BenchResult) (nm' : String) (e' : CompEntry),
      comparisonEntry results' nm' = some e' →
      ∃ r z, lastResult results' nm' "rush" = some r ∧
        lastResult results' nm' "zsh" = some z ∧
        e'.rush_ms = r.mean_ms ∧ e'.zsh_ms = z.mean_ms ∧
        e'.speedup = (if 0 < r.mean_ms then z.mean_ms / r.mean_ms else 0) ∧
        e'.faster = (if 1 < e'.speedup then "rush" else "zsh") := by
    intro results' nm' e' h'
    cases h1 : lastResult results' nm' "rush" with
    | none => rw [comparisonEntry, h1] at h'; exact absurd h' (by simp)
    | some r =>
      cases h2 : lastResult results' nm' "zsh" with
      | none => rw [comparisonEntry, h1, h2] at h'; exact absurd h' (by simp)
      | some z =>
        rw [comparisonEntry, h1, h2] at h'
        simp only [Option.some.injEq] at h'
        refine ⟨r, z, rfl, rfl, ?_, ?_, ?_, ?_⟩ <;> rw [← h']
  obtain ⟨r, z, hr, hz, hrm, hzm, hsp, hfa⟩ := hentry results nm e h
  have hrpos : 0 < r.mean_ms := hpos r (lastResult_mem hr).1
  refine ⟨?_, hwin e hfa, ?_, ?_, ?_⟩
  · rw [hsp, if_pos hrpos, hrm, hzm]
  · intro h1
    rw [hfa, h1]
    norm_num
  · intro results' nm' e' h' hle
    obtain ⟨r', z', hr', hz', hrm', hzm', hsp', hfa'⟩ := hentry results' nm' e' h'
    rw [hrm'] at hle
    rw [hfa', hsp', if_neg (not_lt.mpr hle)]
    norm_num
  · intro nm' sh outcomes r' hrun
    cases hfil : outcomes.filter (fun t => decide (0 < t)) with
    | nil => rw [runBenchmark, hfil] at hrun; exact absurd hrun (by simp)
    | cons a rest =>
      rw [runBenchmark, hfil] at hrun
      simp only [Option.some.injEq] at hrun
      have hmem : ∀ x ∈ a :: rest, (0 : ℚ) < x := by
        intro x hx
        rw [← hfil] at hx
        have := (List.mem_filter.mp hx).2
        simpa using this
      have hsum : 0 < (a :: rest).sum := List.sum_pos _ hmem (by simp)
      have hlen : 0 < ((a :: rest).length : ℚ) := by
        have : 0 < (a :: rest).length := by simp
        exact_mod_cast this
      rw [← hrun]
      exact div_pos hsum hlen

/-- Witness for C8: rush mean 2 against zsh mean 4 gives speedup 2 and
rush as winner. -/
theorem speedup_winner_rule_witness :
    ((⟨2, 4, 2, "rush", 2⟩ : CompEntry).speedup =
      (⟨2, 4, 2, "rush", 2⟩ : CompEntry).zsh_ms /
        (⟨2, 4, 2, "rush", 2⟩ : CompEntry).rush_ms)
    ∧ ((⟨2, 4, 2, "rush", 2⟩ : CompEntry).faster = "rush" ↔
        1 < (⟨2, 4, 2, "rush", 2⟩ : CompEntry).speedup)
    ∧ ((⟨2, 4, 2, "rush", 2⟩ : CompEntry).speedup = 1 →
        (⟨2, 4, 2, "rush", 2⟩ : CompEntry).faster = "zsh")
    ∧ (∀ (results' : List BenchResult) (nm' : String) (e' : CompEntry),
        comparisonEntry results' nm' = some e' → e'.rush_ms ≤ 0 →
          e'.faster = "zsh")
    ∧ (∀ (nm' sh : String) (outcomes : List ℚ) (r : BenchResult),
        runBenchmark nm' sh outcomes = some r → 0 < r.mean_ms) :=
  speedup_winner_rule
    [⟨"X", "rush", 2, 2, 2, 2, 1⟩, ⟨"X", "zsh", 4, 4, 4, 4, 1⟩] "X"
    ⟨2, 4, 2, "rush", 2⟩
    (by
      intro r hr
      rcases List.mem_cons.mp hr with h | h
      · rw [h]; norm_num
      · rcases List.mem_cons.mp h with h' | h'
        · rw [h']; norm_num
        · exact absurd h' (List.not_mem_nil r))
    (by
      show comparisonEntry _ "X" = _
      rw [comparisonEntry]
      have h1 : lastResult
          [⟨"X", "rush", 2, 2, 2, 2, 1⟩, ⟨"X", "zsh", 4, 4, 4, 4, 1⟩]
          "X" "rush" = some ⟨"X", "rush", 2, 2, 2, 2, 1⟩ := by decide
      have h2 : lastResult
          [⟨"X", "rush", 2, 2, 2, 2, 1⟩, ⟨"X", "zsh", 4, 4, 4, 4, 1⟩]
          "X" "zsh" = some ⟨"X", "zsh", 4, 4, 4, 4, 1⟩ := by decide
      rw [h1, h2]
      norm_num)

end Rush
